import Mathlib

/-!
Verification development for the factor-graph inference and fitting core of
the pomegranate repository.  The repository sources available here contain
the factor-graph tutorial notebook (docs/tutorials/B_Model_Tutorial_7_Factor_Graphs.ipynb)
but not the implementation module itself, so the data model, the
probability/prediction layer, the sum-product engine and the fitting layer
are modelled from the specification, with the notebook's recorded inputs and
outputs used as concrete ground truth.  All probability arithmetic is carried
out over the rationals, which the notebook's displayed 4-decimal values round.
-/

namespace FG

/-- A probability vector over a discrete domain, with exact rational entries. -/
abbrev Vec := List ℚ

/-- Normalization of a vector: divide by the sum when the sum is nonzero,
otherwise leave the vector unchanged (degenerate case). -/
def normalize (v : Vec) : Vec :=
  if v.sum = 0 then v else v.map (fun x => x / v.sum)

/-- One-hot (clamp) vector over a domain of size n, concentrated at value v.
Modelled from the spec: clamping forces all probability mass on one category. -/
def clampVec (n : ℕ) (v : ℕ) : Vec :=
  (List.range n).map (fun j => if j = v then (1 : ℚ) else 0)

/-- Elementwise product of a list of vectors over a domain of size n; the
empty product is the all-ones vector. -/
def vecProd (n : ℕ) (vs : List Vec) : Vec :=
  vs.foldr (fun v acc => List.zipWith (· * ·) v acc) (List.replicate n (1 : ℚ))

/-- All assignment tuples over the given list of domain sizes, in row-major
order (first dimension slowest). -/
def allTuples : List ℕ → List (List ℕ)
  | [] => [[]]
  | n :: ns => ((List.range n).map (fun v => (allTuples ns).map (v :: ·))).flatten

/-- Row-major rank of an assignment tuple inside the flat parameter table. -/
def rank : List ℕ → List ℕ → ℕ
  | _, [] => 0
  | [], _ :: _ => 0
  | _ :: ns, v :: ts => v * ns.prod + rank ns ts

/-- Modelled from the spec: a factor node of the graph (the JointCategorical
factor as used by FactorGraph; the implementation module is not among the
sources).  It owns an ordered scope of marginal indices (in edge insertion
order), a flat row-major parameter table over the scope's domains, and the
accumulator of sufficient statistics. -/
structure Factor where
  scope : List ℕ
  probs : List ℚ
  stats : List ℚ
deriving DecidableEq, Inhabited

/-- Modelled from the spec: the factor graph, owning the ordered sequence of
marginal distributions (marginal insertion order = data column order) and the
ordered sequence of factors. -/
structure FactorGraph where
  marginals : List Vec
  factors : List Factor
deriving DecidableEq, Inhabited

/-- Domain size of variable i: the length of its marginal's parameter vector. -/
def size (g : FactorGraph) (i : ℕ) : ℕ := (g.marginals.getD i []).length

/-- Domain sizes along a factor's scope, in scope order. -/
def scopeSizes (g : FactorGraph) (scope : List ℕ) : List ℕ := scope.map (size g)

/-- The empty factor graph. -/
def FactorGraph.empty : FactorGraph := ⟨[], []⟩

/-- Modelled from the spec: add_marginal appends a marginal distribution; its
index is its position in insertion order. -/
def add_marginal (g : FactorGraph) (m : Vec) : FactorGraph :=
  { g with marginals := g.marginals ++ [m] }

/-- Modelled from the spec: add_factor appends a factor with the given flat
parameter table, an initially empty scope and a zeroed statistics accumulator. -/
def add_factor (g : FactorGraph) (p : List ℚ) : FactorGraph :=
  { g with factors := g.factors ++ [⟨[], p, List.replicate p.length 0⟩] }

/-- Apply a function to the element at one position of a list, leaving the
rest unchanged. -/
def modifyAt {α : Type} : List α → ℕ → (α → α) → List α
  | [], _, _ => []
  | a :: l, 0, f => f a :: l
  | a :: l, n + 1, f => a :: modifyAt l n f

/-- Modelled from the spec: add_edge (marginal i, factor j) appends i to
factor j's ordered scope; an edge naming an unknown index is rejected (here:
leaves the graph unchanged). -/
def add_edge (g : FactorGraph) (i j : ℕ) : FactorGraph :=
  if i < g.marginals.length ∧ j < g.factors.length then
    { g with factors := modifyAt g.factors j (fun f => { f with scope := f.scope ++ [i] }) }
  else g

/-- Factor records for a bulk construction: factor j of the list receives as
scope the marginal indices of the edges naming factor j, in edge order. -/
def buildFactors (es : List (ℕ × ℕ)) : List (List ℚ) → ℕ → List Factor
  | [], _ => []
  | p :: ps, j =>
      ⟨es.filterMap (fun e => if e.2 = j then some e.1 else none), p,
        List.replicate p.length 0⟩ :: buildFactors es ps (j + 1)

/-- Modelled from the spec: bulk construction from factor tables, marginals
and an edge list of (marginal index, factor index) pairs; each factor's scope
is the ordered list of marginal indices of its incident edges, in edge
insertion order. -/
def bulkGraph (fs : List (List ℚ)) (ms : List Vec) (es : List (ℕ × ℕ)) : FactorGraph :=
  { marginals := ms
    factors := buildFactors es fs 0 }

/-- Incremental construction: the same factors, marginals and edges added one
at a time through add_factor, add_marginal and add_edge, in order. -/
def incrementalGraph (fs : List (List ℚ)) (ms : List Vec) (es : List (ℕ × ℕ)) : FactorGraph :=
  es.foldl (fun g e => add_edge g e.1 e.2)
    (ms.foldl add_marginal (fs.foldl add_factor FactorGraph.empty))

/-- Values of a row at a factor's scope columns, in scope order. -/
def scopeValues (scope : List ℕ) (row : List ℕ) : List ℕ :=
  scope.map (fun i => row.getD i 0)

/-- Modelled from the spec: probability of one fully observed row equals the
product over factors of the factor table entry at the row's scope values,
times the product over marginals of the marginal entry at the row's value in
that column. -/
def rowProbability (g : FactorGraph) (row : List ℕ) : ℚ :=
  (g.factors.map (fun f =>
    f.probs.getD (rank (scopeSizes g f.scope) (scopeValues f.scope row)) 0)).prod *
  ((g.marginals.zip row).map (fun p => p.1.getD p.2 0)).prod

/-- Per-row probability of a fully observed matrix. -/
def probability (g : FactorGraph) (X : List (List ℕ)) : List ℚ :=
  X.map (rowProbability g)

/-- Modelled from the spec: the log-probability of one fully observed row is
the sum of the log of each factor term and each marginal term, computed
directly as a sum of logarithms. -/
noncomputable def rowLogProbability (g : FactorGraph) (row : List ℕ) : ℝ :=
  (g.factors.map (fun f =>
    Real.log ((f.probs.getD (rank (scopeSizes g f.scope) (scopeValues f.scope row)) 0 : ℚ) : ℝ))).sum +
  ((g.marginals.zip row).map (fun p => Real.log ((p.1.getD p.2 0 : ℚ) : ℝ))).sum

/-- Per-row log-probability of a fully observed matrix. -/
noncomputable def log_probability (g : FactorGraph) (X : List (List ℕ)) : List ℝ :=
  X.map (rowLogProbability g)

/-- Modelled from the spec: weighted co-occurrence counts of the rows at a
factor's scope, as a flat row-major vector over the scope's domains. -/
def countsVec (g : FactorGraph) (scope : List ℕ) (X : List (List ℕ)) (w : List ℚ) : List ℚ :=
  (allTuples (scopeSizes g scope)).map (fun t =>
    ((X.zip w).map (fun rw => if scopeValues scope rw.1 = t then rw.2 else 0)).sum)

/-- Modelled from the spec: summarize accumulates the weighted sufficient
statistics of each factor into its accumulator, touching nothing else. -/
def summarize (g : FactorGraph) (X : List (List ℕ)) (w : List ℚ) : FactorGraph :=
  { g with factors := g.factors.map (fun f =>
      { f with stats := List.zipWith (· + ·) f.stats (countsVec g f.scope X w) }) }

/-- Modelled from the spec: from_summaries converts each factor's accumulated
statistics into new parameters by normalizing, and resets the accumulator to
zero; marginals are untouched. -/
def from_summaries (g : FactorGraph) : FactorGraph :=
  { g with factors := g.factors.map (fun f =>
      { f with probs := normalize f.stats, stats := List.replicate f.stats.length 0 }) }

/-- Modelled from the spec: fit is summarize with all-ones weights immediately
followed by from_summaries. -/
def fit (g : FactorGraph) (X : List (List ℕ)) : FactorGraph :=
  from_summaries (summarize g X (List.replicate X.length 1))

/-- Modelled from the spec: the effective belief of variable i under an
observation row is the clamp of the observed value when observed, otherwise
the prior marginal distribution. -/
def eff (g : FactorGraph) (obs : List (Option ℕ)) (i : ℕ) : Vec :=
  match obs.getD i none with
  | some v => clampVec (size g i) v
  | none => g.marginals.getD i []

/-- Per-round state of loopy belief propagation for one row: the current
per-variable beliefs and the marginal-to-factor messages, indexed by factor
and scope position. -/
structure BPState where
  beliefs : List Vec
  msgs : List (List Vec)
deriving DecidableEq, Inhabited

/-- Product of the entries of the incoming messages selected by a tuple,
skipping position p (the destination dimension of a contraction). -/
def exceptProd (p : ℕ) (msgs : List Vec) (t : List ℕ) : ℚ :=
  (List.range msgs.length).foldr
    (fun q acc => if q = p then acc else ((msgs.getD q []).getD (t.getD q 0) 0) * acc) 1

/-- Modelled from the spec: the factor contraction primitive — multiply the
joint table by each incoming message along its dimension and sum out every
dimension except p, yielding an unnormalized vector over dimension p. -/
def contract (sizes : List ℕ) (probs : List ℚ) (p : ℕ) (msgs : List Vec) : Vec :=
  (List.range (sizes.getD p 0)).map (fun v =>
    (((allTuples sizes).filter (fun t => t.getD p 0 = v)).map
      (fun t => probs.getD (rank sizes t) 0 * exceptProd p msgs t)).sum)

/-- Modelled from the spec: one round of factor-to-marginal messages — for
every factor and every incident edge at position p, the normalized
contraction against the other marginal-to-factor messages. -/
def factorMessages (g : FactorGraph) (msgs : List (List Vec)) : List (List Vec) :=
  (List.range g.factors.length).map (fun j =>
    (List.range (g.factors.getD j default).scope.length).map (fun p =>
      normalize (contract (scopeSizes g (g.factors.getD j default).scope)
        (g.factors.getD j default).probs p (msgs.getD j []))))

/-- The factor-to-marginal messages arriving at marginal i, each tagged with
the (factor index, scope position) edge it came from. -/
def incomingIdx (g : FactorGraph) (F2M : List (List Vec)) (i : ℕ) :
    List ((ℕ × ℕ) × Vec) :=
  ((List.range g.factors.length).map (fun j =>
    (List.range (g.factors.getD j default).scope.length).filterMap (fun p =>
      if (g.factors.getD j default).scope.getD p 0 = i then
        some ((j, p), (F2M.getD j []).getD p []) else none))).flatten

/-- The factor-to-marginal messages arriving at marginal i. -/
def incoming (g : FactorGraph) (F2M : List (List Vec)) (i : ℕ) : List Vec :=
  (incomingIdx g F2M i).map (fun e => e.2)

/-- The factor-to-marginal messages arriving at marginal i with the message
on edge (j, p) excluded. -/
def incomingExcept (g : FactorGraph) (F2M : List (List Vec)) (i j p : ℕ) : List Vec :=
  (incomingIdx g F2M i).filterMap (fun e => if e.1 = (j, p) then none else some e.2)

/-- Modelled from the spec: updated belief of marginal i — clamped variables
are re-clamped (clamping never decays), unobserved variables get the
normalized elementwise product of all incoming factor-to-marginal messages. -/
def beliefUpdate (g : FactorGraph) (obs : List (Option ℕ)) (F2M : List (List Vec))
    (i : ℕ) : Vec :=
  match obs.getD i none with
  | some v => clampVec (size g i) v
  | none => normalize (vecProd (size g i) (incoming g F2M i))

/-- Modelled from the spec: recomputed outgoing marginal-to-factor messages —
for an unobserved marginal the normalized product of all incoming
factor-to-marginal messages except the one from the destination edge (the
canonical sum-product exclusion); a clamped marginal keeps sending its clamp. -/
def outgoing (g : FactorGraph) (obs : List (Option ℕ)) (F2M : List (List Vec)) :
    List (List Vec) :=
  (List.range g.factors.length).map (fun j =>
    (List.range (g.factors.getD j default).scope.length).map (fun p =>
      match obs.getD ((g.factors.getD j default).scope.getD p 0) none with
      | some v => clampVec (size g ((g.factors.getD j default).scope.getD p 0)) v
      | none => normalize (vecProd (size g ((g.factors.getD j default).scope.getD p 0))
          (incomingExcept g F2M ((g.factors.getD j default).scope.getD p 0) j p))))

/-- Modelled from the spec: one belief-propagation round — compute all
factor-to-marginal messages from the previous round's marginal-to-factor
messages, then all marginal beliefs, then all new marginal-to-factor messages. -/
def bpRound (g : FactorGraph) (obs : List (Option ℕ)) (s : BPState) : BPState :=
  let F2M := factorMessages g s.msgs
  { beliefs := (List.range g.marginals.length).map (beliefUpdate g obs F2M)
    msgs := outgoing g obs F2M }

/-- Modelled from the spec: the initial state — beliefs are the effective
(clamped or prior) marginals, and every marginal-to-factor message is the
sending marginal's effective belief. -/
def initState (g : FactorGraph) (obs : List (Option ℕ)) : BPState :=
  { beliefs := (List.range g.marginals.length).map (eff g obs)
    msgs := (List.range g.factors.length).map (fun j =>
      ((g.factors.getD j default).scope).map (fun i => eff g obs i)) }

/-- Maximum elementwise absolute change between two belief lists. -/
def maxDiff (u v : List Vec) : ℚ :=
  ((u.zip v).map (fun p =>
    ((p.1.zip p.2).map (fun q => |q.1 - q.2|)).foldr max 0)).foldr max 0

/-- Modelled from the spec: the iteration loop — run rounds until the maximum
belief change is within tolerance or the round budget is exhausted; reaching
the cap is not an error, the current state is the approximate answer. -/
def bpLoop (g : FactorGraph) (obs : List (Option ℕ)) (tol : ℚ) :
    ℕ → BPState → BPState
  | 0, s => s
  | fuel + 1, s =>
    if maxDiff s.beliefs (bpRound g obs s).beliefs ≤ tol then bpRound g obs s
    else bpLoop g obs tol fuel (bpRound g obs s)

/-- Modelled from the spec: predict_proba for one observation row — the final
per-variable belief vectors of the iteration. -/
def predict_proba (g : FactorGraph) (obs : List (Option ℕ)) (tol : ℚ) (fuel : ℕ) :
    List Vec :=
  (bpLoop g obs tol fuel (initState g obs)).beliefs

/-- Largest value of a rational list (the first entry acting as the base case). -/
def maxVal : List ℚ → ℚ
  | [] => 0
  | [x] => x
  | x :: y :: l => max x (maxVal (y :: l))

/-- Index of the first occurrence of the largest value of a list. -/
def argmaxFirst : List ℚ → ℕ
  | [] => 0
  | [_] => 0
  | x :: y :: l => if x < maxVal (y :: l) then argmaxFirst (y :: l) + 1 else 0

/-- Modelled from the spec: predict returns, per variable, the most likely
category of the final belief vector. -/
def predict (g : FactorGraph) (obs : List (Option ℕ)) (tol : ℚ) (fuel : ℕ) :
    List ℕ :=
  (predict_proba g obs tol fuel).map argmaxFirst

/-- Elementwise log of a belief entry, with an exact zero represented as
negative infinity in the extended reals. -/
noncomputable def logBelief (q : ℚ) : EReal :=
  if q = 0 then ⊥ else ((Real.log ((q : ℚ) : ℝ) : ℝ) : EReal)

/-- Modelled from the spec: predict_log_proba is the elementwise logarithm of
the predict_proba belief vectors, with exact zeros mapped to negative
infinity. -/
noncomputable def predict_log_proba (g : FactorGraph) (obs : List (Option ℕ))
    (tol : ℚ) (fuel : ℕ) : List (List EReal) :=
  (predict_proba g obs tol fuel).map (fun v => v.map logBelief)

/-- A fitting-workflow call: one summarize batch, one from_summaries, or one
fit. -/
inductive FitOp where
  | summarizeOp (X : List (List ℕ)) (w : List ℚ)
  | fromSummariesOp
  | fitOp (X : List (List ℕ))

/-- Apply one fitting-workflow call to the graph. -/
def applyOp (g : FactorGraph) : FitOp → FactorGraph
  | .summarizeOp X w => summarize g X w
  | .fromSummariesOp => from_summaries g
  | .fitOp X => fit g X

/-- Apply a sequence of fitting-workflow calls in order. -/
def applyOps (g : FactorGraph) (ops : List FitOp) : FactorGraph :=
  ops.foldl applyOp g

/-- The tutorial's 11-row, 2-variable dataset. -/
def X11 : List (List ℕ) :=
  [[0, 0], [1, 0], [1, 0], [0, 0], [1, 1], [0, 1], [1, 0], [1, 1], [0, 0], [1, 1], [0, 1]]

/-- The tutorial's factor graph: two uniform binary marginals and one joint
factor over both columns with the given flat 2x2 table, edges (m1, f1) then
(m2, f1). -/
def tutorialGraph (p : List ℚ) : FactorGraph :=
  bulkGraph [p] [[1/2, 1/2], [1/2, 1/2]] [(0, 0), (1, 0)]

/-- The tutorial factor table of JointCategorical, flattened row-major. -/
def f1probs : List ℚ := [1/10, 3/10, 2/10, 4/10]

/-- The tutorial graph after fitting the 11-row dataset. -/
def fittedTutorial : FactorGraph := fit (tutorialGraph f1probs) X11

/-- All entries of a vector are nonnegative. -/
def nonneg (v : Vec) : Prop := ∀ x ∈ v, 0 ≤ x

/-- All entries of a vector are strictly positive. -/
def posVec (v : Vec) : Prop := ∀ x ∈ v, 0 < x

/-- A well-formed message over a domain of size n: right length, nonnegative
entries, strictly positive total mass. -/
def okMsg (n : ℕ) (v : Vec) : Prop := v.length = n ∧ nonneg v ∧ 0 < v.sum

/-- Structural and positivity well-formedness of a factor graph: scope
indices name declared marginals, each factor table has the arity its scope
demands with strictly positive entries, and each marginal is a strictly
positive probability vector. -/
def wfGraph (g : FactorGraph) : Prop :=
  (∀ f ∈ g.factors, (∀ i ∈ f.scope, i < g.marginals.length) ∧
     f.probs.length = (scopeSizes g f.scope).prod ∧ posVec f.probs) ∧
  (∀ m ∈ g.marginals, posVec m ∧ m.sum = 1)

/-- An observed cell is well formed when its value lies in the variable's
domain. -/
def obsOK (g : FactorGraph) (i : ℕ) : Option ℕ → Prop
  | none => True
  | some v => v < size g i

instance (g : FactorGraph) (i : ℕ) : (o : Option ℕ) → Decidable (obsOK g i o)
  | none => .isTrue trivial
  | some _ => Nat.decLt _ _

/-- A well-formed observation row: every observed value is inside its
variable's domain. -/
def wfObs (g : FactorGraph) (obs : List (Option ℕ)) : Prop :=
  ∀ i, i < g.marginals.length → obsOK g i (obs.getD i none)

theorem getD_range_map {α : Type} (f : ℕ → α) {n j : ℕ} (d : α) (h : j < n) :
    ((List.range n).map f).getD j d = f j := by
  rw [List.getD_eq_getElem _ _ (by simpa using h)]
  simp

theorem getD_map_lt {α β : Type} (f : α → β) (l : List α) {j : ℕ} (d : β) (d₀ : α)
    (h : j < l.length) : (l.map f).getD j d = f (l.getD j d₀) := by
  rw [List.getD_eq_getElem _ _ (by simpa using h), List.getD_eq_getElem _ _ h]
  simp

theorem getD_mem_of_lt {α : Type} (l : List α) {j : ℕ} (d : α) (h : j < l.length) :
    l.getD j d ∈ l := by
  rw [List.getD_eq_getElem _ _ h]
  exact List.getElem_mem h

theorem nonneg_getD {v : Vec} (h : nonneg v) (k : ℕ) : 0 ≤ v.getD k 0 := by
  by_cases hk : k < v.length
  · exact h _ (getD_mem_of_lt v 0 hk)
  · rw [List.getD_eq_default _ _ (le_of_not_lt hk)]

theorem applyOp_marginals (g : FactorGraph) (op : FitOp) :
    (applyOp g op).marginals = g.marginals := by
  cases op <;> rfl

/-- Claim C4: summarize, from_summaries and fit act only on the factor
distributions; the marginal distributions of the graph are left exactly
unchanged by any sequence of such calls. -/
theorem claim_C4 (g : FactorGraph) (ops : List FitOp) :
    (applyOps g ops).marginals = g.marginals := by
  induction ops generalizing g with
  | nil => rfl
  | cons op rest ih =>
      show (applyOps (applyOp g op) rest).marginals = g.marginals
      rw [ih, applyOp_marginals]

/-- Claim C3: fitting the tutorial's 11-row dataset with a single 2x2 joint
factor sets the factor parameters to exactly the co-occurrence counts divided
by 11, i.e. the row-major table [3/11, 2/11, 3/11, 3/11], regardless of the
factor's initial parameters, and these values round to 0.2727, 0.1818,
0.2727, 0.2727 at 4 decimal places. -/
theorem claim_C3 (a b c d : ℚ) :
    (fit (tutorialGraph [a, b, c, d]) X11).factors.map Factor.probs
        = [[3/11, 2/11, 3/11, 3/11]]
      ∧ |(3 : ℚ)/11 - 2727/10000| ≤ 1/20000 ∧ |(2 : ℚ)/11 - 1818/10000| ≤ 1/20000 := by
  refine ⟨?_, by rw [abs_le]; constructor <;> norm_num, by rw [abs_le]; constructor <;> norm_num⟩
  norm_num [fit, summarize, from_summaries, tutorialGraph, bulkGraph, buildFactors,
    countsVec, normalize, allTuples, scopeSizes, scopeValues, size, X11,
    List.range_succ, List.filterMap_cons, List.zipWith,
    List.replicate_succ, List.zip_cons_cons,
    List.getElem?_cons_zero, List.getElem?_cons_succ]

/-- Append, at each successive position starting from offset j, the scope
entries that the edge list contributes to that factor. -/
def addScopes (es : List (ℕ × ℕ)) : List Factor → ℕ → List Factor
  | [], _ => []
  | f :: l, j =>
      { f with scope := f.scope ++ es.filterMap (fun e => if e.2 = j then some e.1 else none) }
        :: addScopes es l (j + 1)

theorem addScopes_nil (l : List Factor) (j : ℕ) : addScopes [] l j = l := by
  induction l generalizing j with
  | nil => rfl
  | cons f l ih => simp [addScopes, ih]

theorem addScopes_drop (l : List Factor) (e : ℕ × ℕ) (rest : List (ℕ × ℕ)) :
    ∀ j, e.2 < j → addScopes (e :: rest) l j = addScopes rest l j := by
  induction l with
  | nil => intro j _; rfl
  | cons f l ih =>
      intro j hj
      have hne : ¬ e.2 = j := Nat.ne_of_lt hj
      simp only [addScopes, List.filterMap_cons, if_neg hne]
      rw [ih (j + 1) (Nat.lt_succ_of_lt hj)]

theorem modifyAt_length {α : Type} (l : List α) (k : ℕ) (f : α → α) :
    (modifyAt l k f).length = l.length := by
  induction l generalizing k with
  | nil => rfl
  | cons a l ih => cases k with
      | zero => rfl
      | succ k => simp [modifyAt, ih]

theorem addScopes_modify (i : ℕ) (rest : List (ℕ × ℕ)) :
    ∀ (l : List Factor) (k j : ℕ), k < l.length →
      addScopes rest (modifyAt l k (fun f => { f with scope := f.scope ++ [i] })) j
        = addScopes ((i, k + j) :: rest) l j := by
  intro l
  induction l with
  | nil => intro k j hk; exact absurd hk (Nat.not_lt_zero k)
  | cons f l ih =>
      intro k j hk
      cases k with
      | zero =>
          simp only [modifyAt, addScopes, Nat.zero_add]
          congr 1
          · have hcons : List.filterMap (fun e => if e.2 = j then some e.1 else none)
                ((i, j) :: rest)
                = i :: List.filterMap (fun e => if e.2 = j then some e.1 else none) rest := by
              simp
            rw [hcons]
            simp [List.append_assoc]
          · rw [addScopes_drop l (i, j) rest (j + 1) (Nat.lt_succ_self j)]
      | succ k =>
          simp only [modifyAt, addScopes]
          congr 1
          · have hne : ¬ ((k + 1 + j : ℕ) = j) := by omega
            simp [List.filterMap_cons, hne]
          · rw [ih k (j + 1) (Nat.lt_of_succ_lt_succ hk)]
            have harith : k + (j + 1) = k + 1 + j := by omega
            rw [harith]

theorem add_edge_foldl (es : List (ℕ × ℕ)) :
    ∀ (g : FactorGraph), (∀ e ∈ es, e.1 < g.marginals.length ∧ e.2 < g.factors.length) →
      es.foldl (fun g e => add_edge g e.1 e.2) g = ⟨g.marginals, addScopes es g.factors 0⟩ := by
  induction es with
  | nil => intro g _; simp [addScopes_nil]
  | cons e rest ih =>
      intro g hval
      have he := hval e (List.mem_cons_self e rest)
      have hstep : add_edge g e.1 e.2
          = ⟨g.marginals, modifyAt g.factors e.2 (fun f => { f with scope := f.scope ++ [e.1] })⟩ := by
        rw [add_edge, if_pos he]
      show List.foldl (fun g e => add_edge g e.1 e.2) (add_edge g e.1 e.2) rest = _
      rw [hstep, ih _ (by
        intro e2 he2
        have := hval e2 (List.mem_cons_of_mem e he2)
        simpa [modifyAt_length] using this)]
      show FactorGraph.mk g.marginals _ = _
      rw [addScopes_modify e.1 rest g.factors e.2 0 he.2]
      simp

theorem addScopes_map_mk (es : List (ℕ × ℕ)) :
    ∀ (fs : List (List ℚ)) (j : ℕ),
      addScopes es (fs.map (fun p => ⟨[], p, List.replicate p.length 0⟩)) j
        = buildFactors es fs j := by
  intro fs
  induction fs with
  | nil => intro j; rfl
  | cons p ps ih => intro j; simp [addScopes, buildFactors, ih]

theorem foldl_add_factor (fs : List (List ℚ)) :
    ∀ (g : FactorGraph), fs.foldl add_factor g
      = ⟨g.marginals, g.factors ++ fs.map (fun p => ⟨[], p, List.replicate p.length 0⟩)⟩ := by
  induction fs with
  | nil => intro g; simp
  | cons p ps ih =>
      intro g
      show List.foldl add_factor (add_factor g p) ps = _
      rw [ih]
      simp [add_factor]

theorem foldl_add_marginal (ms : List Vec) :
    ∀ (g : FactorGraph), ms.foldl add_marginal g = ⟨g.marginals ++ ms, g.factors⟩ := by
  induction ms with
  | nil => intro g; simp
  | cons m rest ih =>
      intro g
      show List.foldl add_marginal (add_marginal g m) rest = _
      rw [ih]
      simp [add_marginal]

/-- Claim C9: the bulk constructor builds a graph equal, as a value, to the
graph obtained by adding the same factors, marginals and (valid) edges one at
a time through add_factor, add_marginal and add_edge in the same order; hence
every query and every fitting operation on the two graphs agrees. -/
theorem claim_C9 (fs : List (List ℚ)) (ms : List Vec) (es : List (ℕ × ℕ))
    (hval : ∀ e ∈ es, e.1 < ms.length ∧ e.2 < fs.length) :
    bulkGraph fs ms es = incrementalGraph fs ms es
      ∧ (∀ X, probability (bulkGraph fs ms es) X = probability (incrementalGraph fs ms es) X)
      ∧ (∀ X, fit (bulkGraph fs ms es) X = fit (incrementalGraph fs ms es) X)
      ∧ (∀ obs tol fuel, predict_proba (bulkGraph fs ms es) obs tol fuel
          = predict_proba (incrementalGraph fs ms es) obs tol fuel) := by
  have hbase : ms.foldl add_marginal (fs.foldl add_factor FactorGraph.empty)
      = ⟨ms, fs.map (fun p => ⟨[], p, List.replicate p.length 0⟩)⟩ := by
    rw [foldl_add_factor, foldl_add_marginal]
    rfl
  have hmain : bulkGraph fs ms es = incrementalGraph fs ms es := by
    rw [incrementalGraph, hbase, add_edge_foldl es _ (by
      intro e he
      have := hval e he
      simpa using this)]
    show bulkGraph fs ms es = FactorGraph.mk ms _
    rw [addScopes_map_mk]
    rfl
  exact ⟨hmain, fun X => by rw [hmain], fun X => by rw [hmain], fun obs tol fuel => by rw [hmain]⟩

/-- Claim C7 fails as stated: with two distinct marginal distributions,
building the single 2x2 factor's edges in reversed order does transpose its
scope, but evaluating probability on the column-swapped input gives 1/10
against 1/20 for the original ordering, because the per-column marginal
factors of the probability product do not move with the factor's scope. -/
theorem claim_C7_counterexample :
    ((incrementalGraph [[1/10, 3/10, 2/10, 4/10]] [[1/3, 2/3], [1/2, 1/2]]
        [(1, 0), (0, 0)]).factors.map Factor.scope = [[1, 0]])
      ∧ probability (incrementalGraph [[1/10, 3/10, 2/10, 4/10]] [[1/3, 2/3], [1/2, 1/2]]
            [(1, 0), (0, 0)]) [[1, 0]]
          ≠ probability (incrementalGraph [[1/10, 3/10, 2/10, 4/10]] [[1/3, 2/3], [1/2, 1/2]]
            [(0, 0), (1, 0)]) [[0, 1]] := by
  constructor
  · norm_num [incrementalGraph, add_edge, add_factor, add_marginal, FactorGraph.empty,
      modifyAt, List.foldl_cons, List.foldl_nil]
  · norm_num [incrementalGraph, add_edge, add_factor, add_marginal, FactorGraph.empty,
      modifyAt, List.foldl_cons, List.foldl_nil, probability, rowProbability, rank,
      scopeSizes, scopeValues, size, List.getD]

/-- Claim C7, amended: when the two variables carry identical marginal
distributions (as in the tutorial, where both are uniform), reversing the
order of the factor's two edges transposes the factor's scope, and
probability on the column-swapped input agrees exactly with the original
ordering, for every table and every input row. -/
theorem claim_C7_amended (T : List ℚ) (m : Vec) (r0 r1 : ℕ) :
    (incrementalGraph [T] [m, m] [(1, 0), (0, 0)]).factors.map Factor.scope = [[1, 0]]
      ∧ (incrementalGraph [T] [m, m] [(0, 0), (1, 0)]).factors.map Factor.scope = [[0, 1]]
      ∧ probability (incrementalGraph [T] [m, m] [(1, 0), (0, 0)]) [[r1, r0]]
          = probability (incrementalGraph [T] [m, m] [(0, 0), (1, 0)]) [[r0, r1]] := by
  refine ⟨?_, ?_, ?_⟩
  · norm_num [incrementalGraph, add_edge, add_factor, add_marginal, FactorGraph.empty,
      modifyAt, List.foldl_cons, List.foldl_nil]
  · norm_num [incrementalGraph, add_edge, add_factor, add_marginal, FactorGraph.empty,
      modifyAt, List.foldl_cons, List.foldl_nil]
  · have h1 : incrementalGraph [T] [m, m] [(1, 0), (0, 0)]
        = ⟨[m, m], [⟨[1, 0], T, List.replicate T.length 0⟩]⟩ := rfl
    have h2 : incrementalGraph [T] [m, m] [(0, 0), (1, 0)]
        = ⟨[m, m], [⟨[0, 1], T, List.replicate T.length 0⟩]⟩ := rfl
    rw [h1, h2, probability, probability, List.map_cons, List.map_nil, List.map_cons,
      List.map_nil]
    simp [rowProbability, rank, scopeSizes, scopeValues, size, List.getD,
      mul_comm, mul_assoc, mul_left_comm]

theorem fittedTutorial_eq :
    fittedTutorial
      = ⟨[[1/2, 1/2], [1/2, 1/2]], [⟨[0, 1], [3/11, 2/11, 3/11, 3/11], [0, 0, 0, 0]⟩]⟩ := by
  norm_num [fittedTutorial, fit, summarize, from_summaries, tutorialGraph, bulkGraph,
    buildFactors, countsVec, normalize, allTuples, scopeSizes, scopeValues, size, X11,
    List.range_succ, List.filterMap_cons, List.zipWith,
    List.replicate_succ, List.zip_cons_cons,
    List.getElem?_cons_zero, List.getElem?_cons_succ]

/-- Witness for claim C9 at the tutorial graph's constructor arguments. -/
theorem claim_C9_witness :
    (∀ e ∈ [((0 : ℕ), (0 : ℕ)), (1, 0)],
        e.1 < ([[(1 : ℚ)/2, 1/2], [1/2, 1/2]]).length ∧ e.2 < ([FG.f1probs]).length)
      ∧ bulkGraph [FG.f1probs] [[1/2, 1/2], [1/2, 1/2]] [(0, 0), (1, 0)]
          = incrementalGraph [FG.f1probs] [[1/2, 1/2], [1/2, 1/2]] [(0, 0), (1, 0)] := by
  refine ⟨by decide, ?_⟩
  exact (claim_C9 [FG.f1probs] [[1/2, 1/2], [1/2, 1/2]] [(0, 0), (1, 0)] (by decide)).1

/-- A graph whose first marginal has two incident factors: the tutorial's
joint factor plus a non-uniform univariate factor on variable 0.  Used to
separate the message policies that a single-factor example cannot tell apart. -/
def twoFactorGraph : FactorGraph :=
  ⟨[[1/2, 1/2], [1/2, 1/2]],
   [⟨[0, 1], f1probs, [0, 0, 0, 0]⟩, ⟨[0], [1/4, 3/4], [0, 0]⟩]⟩

theorem outgoing_getD (g : FactorGraph) (obs : List (Option ℕ)) (F2M : List (List Vec))
    {j p : ℕ} (hj : j < g.factors.length)
    (hp : p < (g.factors.getD j default).scope.length) :
    ((outgoing g obs F2M).getD j []).getD p []
      = match obs.getD ((g.factors.getD j default).scope.getD p 0) none with
        | some v => clampVec (size g ((g.factors.getD j default).scope.getD p 0)) v
        | none => normalize (vecProd (size g ((g.factors.getD j default).scope.getD p 0))
            (incomingExcept g F2M ((g.factors.getD j default).scope.getD p 0) j p)) := by
  rw [outgoing, getD_range_map _ _ hj, getD_range_map _ _ hp]

/-- Claim C1 fails as stated only at clamped marginals: in a graph where
variable 0 has two incident factors and is observed, the recomputed outgoing
message to the first factor is the clamp [1, 0], not the normalized product
[1/4, 3/4] of the other incoming factor-to-marginal messages; clamping
overrides the product rule so that absolute evidence never decays. -/
theorem claim_C1_counterexample :
    (incomingIdx twoFactorGraph
        (factorMessages twoFactorGraph (initState twoFactorGraph [some 0, none]).msgs)
        0).length = 2
      ∧ ((bpRound twoFactorGraph [some 0, none]
            (initState twoFactorGraph [some 0, none])).msgs.getD 0 []).getD 0 []
          ≠ normalize (vecProd (size twoFactorGraph 0)
              (incomingExcept twoFactorGraph
                (factorMessages twoFactorGraph (initState twoFactorGraph [some 0, none]).msgs)
                0 0 0)) := by
  constructor
  · norm_num [twoFactorGraph, incomingIdx, factorMessages, initState, eff, clampVec,
      contract, exceptProd, normalize, vecProd, allTuples, rank, size, scopeSizes,
      f1probs, List.range_succ, List.filterMap_cons, List.zipWith, List.replicate_succ,
      List.zip_cons_cons, List.getElem?_cons_zero, List.getElem?_cons_succ,
      List.filter_cons, List.flatten_cons, List.getD]
  · norm_num [twoFactorGraph, bpRound, outgoing, incomingIdx, incomingExcept,
      factorMessages, initState, eff, clampVec, beliefUpdate, incoming,
      contract, exceptProd, normalize, vecProd, allTuples, rank, size, scopeSizes,
      f1probs, List.range_succ, List.filterMap_cons, List.zipWith, List.replicate_succ,
      List.zip_cons_cons, List.getElem?_cons_zero, List.getElem?_cons_succ,
      List.filter_cons, List.flatten_cons, List.getD]

/-- Claim C1, amended: in every belief-propagation round and for every graph,
the outgoing message that an unobserved (unclamped) marginal sends to an
incident factor equals the normalized elementwise product of all incoming
factor-to-marginal messages of that round except the one most recently
received from the destination edge; observed marginals instead keep sending
their one-hot clamp. -/
theorem claim_C1 (g : FactorGraph) (obs : List (Option ℕ)) (s : BPState)
    (j p : ℕ) (hj : j < g.factors.length)
    (hp : p < (g.factors.getD j default).scope.length)
    (hobs : obs.getD ((g.factors.getD j default).scope.getD p 0) none = none) :
    ((bpRound g obs s).msgs.getD j []).getD p []
      = normalize (vecProd (size g ((g.factors.getD j default).scope.getD p 0))
          (incomingExcept g (factorMessages g s.msgs)
            ((g.factors.getD j default).scope.getD p 0) j p)) := by
  show ((outgoing g obs (factorMessages g s.msgs)).getD j []).getD p [] = _
  rw [outgoing_getD g obs _ hj hp, hobs]

/-- Witness for claim C1 on the two-factor graph with both variables
unobserved, at the edge from marginal 0 to factor 0. -/
theorem claim_C1_witness :
    (0 : ℕ) < twoFactorGraph.factors.length
      ∧ (0 : ℕ) < (twoFactorGraph.factors.getD 0 default).scope.length
      ∧ (([] : List (Option ℕ)).getD ((twoFactorGraph.factors.getD 0 default).scope.getD 0 0) none
          = none)
      ∧ ((bpRound twoFactorGraph [] (initState twoFactorGraph [])).msgs.getD 0 []).getD 0 []
          = normalize (vecProd (size twoFactorGraph ((twoFactorGraph.factors.getD 0 default).scope.getD 0 0))
              (incomingExcept twoFactorGraph (factorMessages twoFactorGraph (initState twoFactorGraph []).msgs)
                ((twoFactorGraph.factors.getD 0 default).scope.getD 0 0) 0 0)) :=
  ⟨by decide, by decide, by decide,
    claim_C1 twoFactorGraph [] (initState twoFactorGraph []) 0 0
      (by decide) (by decide) (by decide)⟩

theorem le_maxVal : ∀ (l : List ℚ), ∀ x ∈ l, x ≤ maxVal l := by
  intro l
  induction l with
  | nil => intro x hx; cases hx
  | cons a t ih =>
      intro x hx
      cases t with
      | nil =>
          have : x = a := by simpa using hx
          simp [this, maxVal]
      | cons b t2 =>
          rcases List.mem_cons.mp hx with h | h
          · rw [h]; exact le_max_left _ _
          · exact le_trans (ih x h) (le_max_right _ _)

theorem argmaxFirst_lt_length : ∀ (l : List ℚ), l ≠ [] → argmaxFirst l < l.length := by
  intro l
  induction l with
  | nil => intro h; exact absurd rfl h
  | cons a t ih =>
      intro _
      cases t with
      | nil => simp [argmaxFirst]
      | cons b t2 =>
          by_cases h : a < maxVal (b :: t2)
          · have h2 := ih (List.cons_ne_nil b t2)
            simp only [argmaxFirst, if_pos h, List.length_cons]
            simp only [List.length_cons] at h2
            omega
          · simp [argmaxFirst, if_neg h]

theorem argmaxFirst_getD : ∀ (l : List ℚ), l ≠ [] → l.getD (argmaxFirst l) 0 = maxVal l := by
  intro l
  induction l with
  | nil => intro h; exact absurd rfl h
  | cons a t ih =>
      intro _
      cases t with
      | nil => simp [argmaxFirst, maxVal]
      | cons b t2 =>
          by_cases h : a < maxVal (b :: t2)
          · have h2 := ih (List.cons_ne_nil b t2)
            simp only [argmaxFirst, maxVal, if_pos h]
            rw [max_eq_right (le_of_lt h)]
            simpa using h2
          · simp [argmaxFirst, maxVal, if_neg h, max_eq_left (le_of_not_lt h)]

theorem argmaxFirst_min : ∀ (l : List ℚ) (k : ℕ),
    k < l.length → l.getD k 0 = maxVal l → argmaxFirst l ≤ k := by
  intro l
  induction l with
  | nil => intro k hk; exact absurd hk (by simp)
  | cons a t ih =>
      intro k hk hval
      cases t with
      | nil => simp [argmaxFirst]
      | cons b t2 =>
          by_cases h : a < maxVal (b :: t2)
          · cases k with
            | zero =>
                exfalso
                have ha : a = maxVal (a :: b :: t2) := by simpa using hval
                rw [maxVal, max_eq_right (le_of_lt h)] at ha
                exact absurd ha (ne_of_lt h)
            | succ k2 =>
                have hk2 : k2 < (b :: t2).length := by simpa using Nat.lt_of_succ_lt_succ hk
                have hv2 : (b :: t2).getD k2 0 = maxVal (b :: t2) := by
                  have : (a :: b :: t2).getD (k2 + 1) 0 = (b :: t2).getD k2 0 := rfl
                  rw [this] at hval
                  rw [hval, maxVal, max_eq_right (le_of_lt h)]
                simp only [argmaxFirst, if_pos h]
                exact Nat.succ_le_succ (ih k2 hk2 hv2)
          · simp [argmaxFirst, if_neg h]

set_option maxHeartbeats 4000000 in
/-- Claim C10: predict is the per-variable first-maximum of the belief
vectors, so tied maxima resolve to the smallest category index; in
particular the tutorial's row with tied belief [1/2, 1/2] on variable 0
predicts category 0, as recorded in the notebook. -/
theorem claim_C10 :
    (∀ (g : FactorGraph) (obs : List (Option ℕ)) (tol : ℚ) (fuel : ℕ),
        predict g obs tol fuel = (predict_proba g obs tol fuel).map argmaxFirst)
      ∧ (∀ (b : Vec), b ≠ [] →
            b.getD (argmaxFirst b) 0 = maxVal b
              ∧ ∀ k, k < b.length → b.getD k 0 = maxVal b → argmaxFirst b ≤ k)
      ∧ argmaxFirst [1/2, 1/2] = 0
      ∧ predict fittedTutorial [none, some 0] 0 5 = [0, 0] := by
  refine ⟨fun g obs tol fuel => rfl,
    fun b hb => ⟨argmaxFirst_getD b hb, fun k hk hv => argmaxFirst_min b k hk hv⟩,
    by norm_num [argmaxFirst, maxVal], ?_⟩
  have hp : predict_proba fittedTutorial [none, some 0] 0 5 = [[1/2, 1/2], [1, 0]] := by
    rw [fittedTutorial_eq]
    norm_num [predict_proba, bpLoop, bpRound, initState, outgoing, factorMessages,
      beliefUpdate, eff, contract, exceptProd, incomingIdx, incomingExcept, incoming,
      maxDiff, normalize, vecProd, clampVec, allTuples, rank, size, scopeSizes,
      List.range_succ, List.filterMap_cons, List.zipWith, List.replicate_succ,
      List.zip_cons_cons, List.getElem?_cons_zero, List.getElem?_cons_succ,
      List.filter_cons, List.flatten_cons, List.getD]
  rw [predict, hp]
  norm_num [argmaxFirst, maxVal]

/-- Witness for the tie-breaking part of claim C10 at the tied belief vector
[1/2, 1/2]. -/
theorem claim_C10_witness :
    (([1/2, 1/2] : Vec) ≠ [])
      ∧ (([1/2, 1/2] : Vec).getD (argmaxFirst [1/2, 1/2]) 0 = maxVal [1/2, 1/2]
          ∧ ∀ k, k < ([1/2, 1/2] : Vec).length
              → ([1/2, 1/2] : Vec).getD k 0 = maxVal [1/2, 1/2]
              → argmaxFirst [1/2, 1/2] ≤ k) :=
  ⟨by simp, claim_C10.2.1 [1/2, 1/2] (by simp)⟩

set_option maxHeartbeats 4000000 in
/-- Claim C6: predict_log_proba is exactly the elementwise logarithm of the
predict_proba beliefs, with an exact zero probability represented as bottom
(negative infinity) of the extended reals; on the tutorial's fully observed
row the clamped beliefs [0, 1] and [1, 0] map to [bottom, 0] and [0, bottom]. -/
theorem claim_C6 :
    (∀ (g : FactorGraph) (obs : List (Option ℕ)) (tol : ℚ) (fuel : ℕ),
        predict_log_proba g obs tol fuel
          = (predict_proba g obs tol fuel).map (fun v => v.map logBelief))
      ∧ logBelief 0 = ⊥
      ∧ (∀ q : ℚ, q ≠ 0 → logBelief q = ((Real.log ((q : ℚ) : ℝ) : ℝ) : EReal))
      ∧ predict_log_proba fittedTutorial [some 1, some 0] 0 5
          = [[⊥, 0], [0, ⊥]] := by
  refine ⟨fun g obs tol fuel => rfl, by simp [logBelief],
    fun q hq => by simp [logBelief, hq], ?_⟩
  have hp : predict_proba fittedTutorial [some 1, some 0] 0 5 = [[0, 1], [1, 0]] := by
    rw [fittedTutorial_eq]
    norm_num [predict_proba, bpLoop, bpRound, initState, outgoing, factorMessages,
      beliefUpdate, eff, contract, exceptProd, incomingIdx, incomingExcept, incoming,
      maxDiff, normalize, vecProd, clampVec, allTuples, rank, size, scopeSizes,
      List.range_succ, List.filterMap_cons, List.zipWith, List.replicate_succ,
      List.zip_cons_cons, List.getElem?_cons_zero, List.getElem?_cons_succ,
      List.filter_cons, List.flatten_cons, List.getD]
  rw [predict_log_proba, hp]
  norm_num [logBelief, Real.log_one]

/-- Witness for the nonzero-probability part of claim C6 at probability 3/5. -/
theorem claim_C6_witness :
    ((3 : ℚ)/5 ≠ 0)
      ∧ logBelief (3/5) = ((Real.log ((((3 : ℚ)/5 : ℚ)) : ℝ) : ℝ) : EReal) :=
  ⟨by norm_num, claim_C6.2.2.1 (3/5) (by norm_num)⟩

theorem exp_6855_lt : Real.exp 0.6855 < 1.9847651 := by
  have h1 : |(0.6855 : ℝ)| ≤ 1 := by
    rw [abs_of_nonneg (by norm_num : (0:ℝ) ≤ 0.6855)]; norm_num
  have hb := @Real.exp_bound (0.6855 : ℝ) h1 10 (by norm_num)
  rw [abs_le] at hb
  have hb2 := hb.2
  rw [sub_le_iff_le_add] at hb2
  exact lt_of_le_of_lt hb2 (by norm_num [Finset.sum_range_succ, Nat.factorial, abs_of_nonneg])

theorem lt_exp_6857 : (1.9851609 : ℝ) < Real.exp 0.6857 := by
  have hs := Real.sum_le_exp_of_nonneg (by norm_num : (0:ℝ) ≤ 0.6857) 10
  refine lt_of_lt_of_le ?_ hs
  norm_num [Finset.sum_range_succ, Nat.factorial]

theorem exp_0909_lt : Real.exp 0.0909 < 1.0951603 := by
  have h1 : |(0.0909 : ℝ)| ≤ 1 := by
    rw [abs_of_nonneg (by norm_num : (0:ℝ) ≤ 0.0909)]; norm_num
  have hb := @Real.exp_bound (0.0909 : ℝ) h1 6 (by norm_num)
  rw [abs_le] at hb
  have hb2 := hb.2
  rw [sub_le_iff_le_add] at hb2
  exact lt_of_le_of_lt hb2 (by norm_num [Finset.sum_range_succ, Nat.factorial, abs_of_nonneg])

theorem lt_exp_0911 : (1.0953785 : ℝ) < Real.exp 0.0911 := by
  have hs := Real.sum_le_exp_of_nonneg (by norm_num : (0:ℝ) ≤ 0.0911) 6
  refine lt_of_lt_of_le ?_ hs
  norm_num [Finset.sum_range_succ, Nat.factorial]

theorem exp_26855_lt : Real.exp 2.6855 < 44/3 := by
  have hsplit : (2.6855 : ℝ) = 1 + 1 + 0.6855 := by norm_num
  rw [hsplit, Real.exp_add, Real.exp_add]
  have h1 : Real.exp 1 * Real.exp 1 < 2.7182818286 * 2.7182818286 :=
    mul_lt_mul'' Real.exp_one_lt_d9 Real.exp_one_lt_d9
      (le_of_lt (Real.exp_pos 1)) (le_of_lt (Real.exp_pos 1))
  have h2 : Real.exp 1 * Real.exp 1 * Real.exp 0.6855
      < 2.7182818286 * 2.7182818286 * 1.9847651 :=
    mul_lt_mul'' h1 exp_6855_lt (by positivity) (le_of_lt (Real.exp_pos _))
  exact lt_trans h2 (by norm_num)

theorem lt_exp_26857 : (44/3 : ℝ) < Real.exp 2.6857 := by
  have hsplit : (2.6857 : ℝ) = 1 + 1 + 0.6857 := by norm_num
  rw [hsplit, Real.exp_add, Real.exp_add]
  have h1 : (2.7182818283 : ℝ) * 2.7182818283 < Real.exp 1 * Real.exp 1 :=
    mul_lt_mul'' Real.exp_one_gt_d9 Real.exp_one_gt_d9 (by norm_num) (by norm_num)
  have h2 : (2.7182818283 : ℝ) * 2.7182818283 * 1.9851609
      < Real.exp 1 * Real.exp 1 * Real.exp 0.6857 :=
    mul_lt_mul'' h1 lt_exp_6857 (by norm_num) (by norm_num)
  exact lt_trans (by norm_num) h2

theorem exp_30909_lt : Real.exp 3.0909 < 22 := by
  have hsplit : (3.0909 : ℝ) = 1 + 1 + 1 + 0.0909 := by norm_num
  rw [hsplit, Real.exp_add, Real.exp_add, Real.exp_add]
  have h1 : Real.exp 1 * Real.exp 1 < 2.7182818286 * 2.7182818286 :=
    mul_lt_mul'' Real.exp_one_lt_d9 Real.exp_one_lt_d9
      (le_of_lt (Real.exp_pos 1)) (le_of_lt (Real.exp_pos 1))
  have h2 : Real.exp 1 * Real.exp 1 * Real.exp 1
      < 2.7182818286 * 2.7182818286 * 2.7182818286 :=
    mul_lt_mul'' h1 Real.exp_one_lt_d9 (by positivity) (le_of_lt (Real.exp_pos 1))
  have h3 : Real.exp 1 * Real.exp 1 * Real.exp 1 * Real.exp 0.0909
      < 2.7182818286 * 2.7182818286 * 2.7182818286 * 1.0951603 :=
    mul_lt_mul'' h2 exp_0909_lt (by positivity) (le_of_lt (Real.exp_pos _))
  exact lt_trans h3 (by norm_num)

theorem lt_exp_30911 : (22 : ℝ) < Real.exp 3.0911 := by
  have hsplit : (3.0911 : ℝ) = 1 + 1 + 1 + 0.0911 := by norm_num
  rw [hsplit, Real.exp_add, Real.exp_add, Real.exp_add]
  have h1 : (2.7182818283 : ℝ) * 2.7182818283 < Real.exp 1 * Real.exp 1 :=
    mul_lt_mul'' Real.exp_one_gt_d9 Real.exp_one_gt_d9 (by norm_num) (by norm_num)
  have h2 : (2.7182818283 : ℝ) * 2.7182818283 * 2.7182818283
      < Real.exp 1 * Real.exp 1 * Real.exp 1 :=
    mul_lt_mul'' h1 Real.exp_one_gt_d9 (by norm_num) (by norm_num)
  have h3 : (2.7182818283 : ℝ) * 2.7182818283 * 2.7182818283 * 1.0953785
      < Real.exp 1 * Real.exp 1 * Real.exp 1 * Real.exp 0.0911 :=
    mul_lt_mul'' h2 lt_exp_0911 (by norm_num) (by norm_num)
  exact lt_trans (by norm_num) h3

theorem log_344_bounds : |Real.log ((3:ℝ)/44) + 2.6856| < 1/10^4 := by
  rw [abs_lt]
  constructor
  · have h : (-2.6857 : ℝ) < Real.log (3/44) := by
      rw [Real.lt_log_iff_exp_lt (by norm_num : (0:ℝ) < 3/44)]
      rw [show (-2.6857 : ℝ) = -(2.6857) by norm_num, Real.exp_neg]
      calc (Real.exp 2.6857)⁻¹ < ((44:ℝ)/3)⁻¹ := by
            apply inv_strictAnti₀ (by norm_num) lt_exp_26857
        _ = 3/44 := by norm_num
    linarith
  · have h : Real.log ((3:ℝ)/44) < -2.6855 := by
      rw [Real.log_lt_iff_lt_exp (by norm_num : (0:ℝ) < 3/44)]
      rw [show (-2.6855 : ℝ) = -(2.6855) by norm_num, Real.exp_neg]
      calc (3/44 : ℝ) = ((44:ℝ)/3)⁻¹ := by norm_num
        _ < (Real.exp 2.6855)⁻¹ := inv_strictAnti₀ (Real.exp_pos _) exp_26855_lt
    linarith

theorem log_122_bounds : |Real.log ((1:ℝ)/22) + 3.0910| < 1/10^4 := by
  rw [abs_lt]
  constructor
  · have h : (-3.0911 : ℝ) < Real.log (1/22) := by
      rw [Real.lt_log_iff_exp_lt (by norm_num : (0:ℝ) < 1/22)]
      rw [show (-3.0911 : ℝ) = -(3.0911) by norm_num, Real.exp_neg]
      calc (Real.exp 3.0911)⁻¹ < ((22:ℝ))⁻¹ := by
            apply inv_strictAnti₀ (by norm_num) lt_exp_30911
        _ = 1/22 := by norm_num
    linarith
  · have h : Real.log ((1:ℝ)/22) < -3.0909 := by
      rw [Real.log_lt_iff_lt_exp (by norm_num : (0:ℝ) < 1/22)]
      rw [show (-3.0909 : ℝ) = -(3.0909) by norm_num, Real.exp_neg]
      calc (1/22 : ℝ) = ((22:ℝ))⁻¹ := by norm_num
        _ < (Real.exp 3.0909)⁻¹ := inv_strictAnti₀ (Real.exp_pos _) exp_30909_lt
    linarith

theorem rowLog_00 : rowLogProbability fittedTutorial [0, 0] = Real.log ((3:ℝ)/44) := by
  rw [fittedTutorial_eq]
  norm_num [rowLogProbability, rank, scopeSizes, scopeValues, size, List.getD]
  rw [← Real.log_mul (by norm_num) (by norm_num), ← Real.log_mul (by norm_num) (by norm_num)]
  norm_num

theorem rowLog_10 : rowLogProbability fittedTutorial [1, 0] = Real.log ((3:ℝ)/44) := by
  rw [fittedTutorial_eq]
  norm_num [rowLogProbability, rank, scopeSizes, scopeValues, size, List.getD]
  rw [← Real.log_mul (by norm_num) (by norm_num), ← Real.log_mul (by norm_num) (by norm_num)]
  norm_num

theorem rowLog_11 : rowLogProbability fittedTutorial [1, 1] = Real.log ((3:ℝ)/44) := by
  rw [fittedTutorial_eq]
  norm_num [rowLogProbability, rank, scopeSizes, scopeValues, size, List.getD]
  rw [← Real.log_mul (by norm_num) (by norm_num), ← Real.log_mul (by norm_num) (by norm_num)]
  norm_num

theorem rowLog_01 : rowLogProbability fittedTutorial [0, 1] = Real.log ((1:ℝ)/22) := by
  rw [fittedTutorial_eq]
  norm_num [rowLogProbability, rank, scopeSizes, scopeValues, size, List.getD]
  rw [← Real.log_mul (by norm_num) (by norm_num), ← Real.log_mul (by norm_num) (by norm_num)]
  norm_num

theorem exp_list_sum_log (l : List ℝ) (h : ∀ x ∈ l, 0 < x) :
    Real.exp ((l.map Real.log).sum) = l.prod := by
  induction l with
  | nil => simp
  | cons a t ih =>
      simp only [List.map_cons, List.sum_cons, List.prod_cons, Real.exp_add]
      rw [Real.exp_log (h a (List.mem_cons_self a t)),
        ih (fun x hx => h x (List.mem_cons_of_mem a hx))]

theorem cast_list_prod (L : List ℚ) :
    ((L.prod : ℚ) : ℝ) = (L.map (fun q : ℚ => (q : ℝ))).prod := by
  induction L with
  | nil => simp
  | cons a t ih => simp [ih]

theorem rowLog_exp (g : FactorGraph) (row : List ℕ)
    (hf : ∀ f ∈ g.factors,
        (0:ℚ) < f.probs.getD (rank (scopeSizes g f.scope) (scopeValues f.scope row)) 0)
    (hm : ∀ pr ∈ g.marginals.zip row, (0:ℚ) < pr.1.getD pr.2 0) :
    Real.exp (rowLogProbability g row) = ((rowProbability g row : ℚ) : ℝ) := by
  have e1 : g.factors.map (fun f =>
        Real.log ((f.probs.getD (rank (scopeSizes g f.scope) (scopeValues f.scope row)) 0 : ℚ) : ℝ))
      = (g.factors.map (fun f =>
          ((f.probs.getD (rank (scopeSizes g f.scope) (scopeValues f.scope row)) 0 : ℚ) : ℝ))).map
            Real.log := by
    rw [List.map_map]; rfl
  have e2 : (g.marginals.zip row).map (fun pr => Real.log ((pr.1.getD pr.2 0 : ℚ) : ℝ))
      = ((g.marginals.zip row).map (fun pr => ((pr.1.getD pr.2 0 : ℚ) : ℝ))).map Real.log := by
    rw [List.map_map]; rfl
  have hA : ∀ x ∈ g.factors.map (fun f =>
        ((f.probs.getD (rank (scopeSizes g f.scope) (scopeValues f.scope row)) 0 : ℚ) : ℝ)), 0 < x := by
    intro x hx
    rcases List.mem_map.mp hx with ⟨f, hf2, rfl⟩
    exact_mod_cast hf f hf2
  have hB : ∀ x ∈ (g.marginals.zip row).map (fun pr => ((pr.1.getD pr.2 0 : ℚ) : ℝ)), 0 < x := by
    intro x hx
    rcases List.mem_map.mp hx with ⟨pr, hpr, rfl⟩
    exact_mod_cast hm pr hpr
  rw [rowLogProbability, Real.exp_add, e1, e2, exp_list_sum_log _ hA, exp_list_sum_log _ hB,
    rowProbability, Rat.cast_mul, cast_list_prod, cast_list_prod, List.map_map, List.map_map]
  rfl

set_option maxHeartbeats 1000000 in
/-- Claim C2: probability of a fully observed matrix is, per row, the product
over factors of the table entry at the row's scope values times the product
over marginals of the marginal entry at the row's value; log_probability is
the direct sum of the corresponding log terms (whose exponential recovers the
probability whenever all terms are positive, so no exponentiate-then-log step
occurs).  On the fitted tutorial model the probabilities are 3/44 (which
rounds to 0.0682) for nine rows and 1/22 for the two [0,1] rows, and the
log-probabilities are log(3/44) and log(1/22), within 0.0001 of the displayed
values -2.6856 and -3.0910. -/
theorem claim_C2 :
    (∀ (g : FactorGraph) (X : List (List ℕ)),
        probability g X = X.map (fun row =>
          (g.factors.map (fun f =>
            f.probs.getD (rank (scopeSizes g f.scope) (scopeValues f.scope row)) 0)).prod *
          ((g.marginals.zip row).map (fun pr => pr.1.getD pr.2 0)).prod)
          ∧ log_probability g X = X.map (fun row =>
            (g.factors.map (fun f => Real.log
              ((f.probs.getD (rank (scopeSizes g f.scope) (scopeValues f.scope row)) 0 : ℚ) : ℝ))).sum +
            ((g.marginals.zip row).map (fun pr => Real.log ((pr.1.getD pr.2 0 : ℚ) : ℝ))).sum))
      ∧ (∀ (g : FactorGraph) (row : List ℕ),
          (∀ f ∈ g.factors,
              (0:ℚ) < f.probs.getD (rank (scopeSizes g f.scope) (scopeValues f.scope row)) 0)
            → (∀ pr ∈ g.marginals.zip row, (0:ℚ) < pr.1.getD pr.2 0)
            → Real.exp (rowLogProbability g row) = ((rowProbability g row : ℚ) : ℝ))
      ∧ probability fittedTutorial X11
          = [3/44, 3/44, 3/44, 3/44, 3/44, 1/22, 3/44, 3/44, 3/44, 3/44, 1/22]
      ∧ |(3:ℚ)/44 - 682/10000| ≤ 1/20000
      ∧ log_probability fittedTutorial X11
          = [Real.log ((3:ℝ)/44), Real.log ((3:ℝ)/44), Real.log ((3:ℝ)/44), Real.log ((3:ℝ)/44),
             Real.log ((3:ℝ)/44), Real.log ((1:ℝ)/22), Real.log ((3:ℝ)/44), Real.log ((3:ℝ)/44),
             Real.log ((3:ℝ)/44), Real.log ((3:ℝ)/44), Real.log ((1:ℝ)/22)]
      ∧ |Real.log ((3:ℝ)/44) + 2.6856| < 1/10^4
      ∧ |Real.log ((1:ℝ)/22) + 3.0910| < 1/10^4 := by
  refine ⟨fun g X => ⟨rfl, rfl⟩, fun g row hf hm => rowLog_exp g row hf hm, ?_,
    by rw [abs_le]; constructor <;> norm_num, ?_, log_344_bounds, log_122_bounds⟩
  · rw [fittedTutorial_eq]
    norm_num [probability, rowProbability, rank, scopeSizes, scopeValues, size, X11,
      List.getD]
  · show X11.map (rowLogProbability fittedTutorial) = _
    simp only [X11, List.map_cons, List.map_nil, rowLog_00, rowLog_10, rowLog_11, rowLog_01]

/-- Witness for the exponential-of-log part of claim C2 at the fitted
tutorial model and the fully observed row [0, 0]. -/
theorem claim_C2_witness :
    (∀ f ∈ fittedTutorial.factors,
        (0:ℚ) < f.probs.getD
          (rank (scopeSizes fittedTutorial f.scope) (scopeValues f.scope [0, 0])) 0)
      ∧ (∀ pr ∈ fittedTutorial.marginals.zip ([0, 0] : List ℕ), (0:ℚ) < pr.1.getD pr.2 0)
      ∧ Real.exp (rowLogProbability fittedTutorial [0, 0])
          = ((rowProbability fittedTutorial [0, 0] : ℚ) : ℝ) := by
  have h1 : ∀ f ∈ fittedTutorial.factors,
      (0:ℚ) < f.probs.getD
        (rank (scopeSizes fittedTutorial f.scope) (scopeValues f.scope [0, 0])) 0 := by
    rw [fittedTutorial_eq]
    intro f hf
    rw [List.mem_singleton] at hf
    subst hf
    norm_num [rank, scopeSizes, scopeValues, size, List.getD]
  have h2 : ∀ pr ∈ fittedTutorial.marginals.zip ([0, 0] : List ℕ),
      (0:ℚ) < pr.1.getD pr.2 0 := by
    rw [fittedTutorial_eq]
    intro pr hpr
    simp only [List.zip_cons_cons, List.zip_nil_right] at hpr
    fin_cases hpr <;> norm_num [List.getD]
  exact ⟨h1, h2, claim_C2.2.1 fittedTutorial [0, 0] h1 h2⟩

theorem sum_map_div (l : List ℚ) (c : ℚ) : (l.map (fun x => x / c)).sum = l.sum / c := by
  induction l with
  | nil => simp
  | cons a t ih => simp [ih, add_div]

theorem normalize_length (v : Vec) : (normalize v).length = v.length := by
  rw [normalize]; split <;> simp

theorem normalize_sum {v : Vec} (h : v.sum ≠ 0) : (normalize v).sum = 1 := by
  rw [normalize, if_neg h, sum_map_div, div_self h]

theorem normalize_nonneg {v : Vec} (h : nonneg v) : nonneg (normalize v) := by
  rw [normalize]; split
  · exact h
  · intro x hx
    rcases List.mem_map.mp hx with ⟨y, hy, rfl⟩
    exact div_nonneg (h y hy) (List.sum_nonneg h)

theorem normalize_posVec {v : Vec} (h : posVec v) : posVec (normalize v) := by
  rw [normalize]; split
  · exact h
  · intro x hx
    rcases List.mem_map.mp hx with ⟨y, hy, rfl⟩
    exact div_pos (h y hy) (List.sum_pos v h (List.ne_nil_of_mem hy))

theorem clampVec_length (n v : ℕ) : (clampVec n v).length = n := by simp [clampVec]

theorem clampVec_nonneg (n v : ℕ) : nonneg (clampVec n v) := by
  intro x hx
  rcases List.mem_map.mp hx with ⟨j, _, rfl⟩
  split <;> norm_num

theorem clampVec_sum : ∀ {n v : ℕ}, v < n → (clampVec n v).sum = 1 := by
  intro n
  induction n with
  | zero => intro v h; exact absurd h (Nat.not_lt_zero v)
  | succ n ih =>
      intro v h
      rw [clampVec, List.range_succ, List.map_append, List.sum_append]
      by_cases hv : v < n
      · have hne : ¬((n : ℕ) = v) := by omega
        have e : (List.range n).map (fun j => if j = v then (1:ℚ) else 0) = clampVec n v := rfl
        rw [e, ih hv]
        simp [hne]
      · have hvn : v = n := by omega
        subst hvn
        have hz : ((List.range v).map (fun j => if j = v then (1:ℚ) else 0)).sum = 0 := by
          apply List.sum_eq_zero
          intro x hx
          rcases List.mem_map.mp hx with ⟨j, hj, rfl⟩
          have : j ≠ v := Nat.ne_of_lt (List.mem_range.mp hj)
          simp [this]
        simp [hz]

theorem okMsg_clampVec {g : FactorGraph} {i v : ℕ} (h : v < size g i) :
    okMsg (size g i) (clampVec (size g i) v) :=
  ⟨clampVec_length _ _, clampVec_nonneg _ _, by rw [clampVec_sum h]; norm_num⟩

/-- Index of the first strictly positive entry of a vector. -/
def firstPosIdx : Vec → ℕ
  | [] => 0
  | x :: xs => if 0 < x then 0 else firstPosIdx xs + 1

theorem firstPosIdx_spec : ∀ (v : Vec), nonneg v → 0 < v.sum →
    firstPosIdx v < v.length ∧ 0 < v.getD (firstPosIdx v) 0 := by
  intro v
  induction v with
  | nil => intro _ hs; norm_num at hs
  | cons x xs ih =>
      intro hnn hs
      by_cases hx : 0 < x
      · refine ⟨by simp [firstPosIdx, hx], ?_⟩
        simp only [firstPosIdx, if_pos hx]
        simpa using hx
      · have hx0 : x = 0 :=
          le_antisymm (le_of_not_lt hx) (hnn x (List.mem_cons_self _ _))
        have hxs : 0 < xs.sum := by
          rw [List.sum_cons, hx0, zero_add] at hs
          exact hs
        have hnn2 : nonneg xs := fun y hy => hnn y (List.mem_cons_of_mem _ hy)
        obtain ⟨h1, h2⟩ := ih hnn2 hxs
        constructor
        · simp only [firstPosIdx, if_neg hx, List.length_cons]
          omega
        · simp only [firstPosIdx, if_neg hx]
          simpa using h2

theorem sum_pos_of_mem : ∀ (l : List ℚ), (∀ x ∈ l, 0 ≤ x) →
    ∀ x, x ∈ l → 0 < x → 0 < l.sum := by
  intro l
  induction l with
  | nil => intro _ x hx; cases hx
  | cons a t ih =>
      intro hnn x hx hp
      rw [List.sum_cons]
      rcases List.mem_cons.mp hx with h | h
      · have ht : 0 ≤ t.sum :=
          List.sum_nonneg (fun y hy => hnn y (List.mem_cons_of_mem _ hy))
        rw [← h]
        linarith
      · have ht : 0 < t.sum := ih (fun y hy => hnn y (List.mem_cons_of_mem _ hy)) x h hp
        have ha := hnn a (List.mem_cons_self _ _)
        linarith

theorem posVec_zipWith_mul : ∀ (u w : Vec), posVec u → posVec w →
    posVec (List.zipWith (· * ·) u w) := by
  intro u
  induction u with
  | nil => intro w _ _ x hx; simp at hx
  | cons a t ih =>
      intro w hu hw x hx
      cases w with
      | nil => simp at hx
      | cons b s =>
          rw [List.zipWith_cons_cons] at hx
          rcases List.mem_cons.mp hx with h | h
          · rw [h]
            exact mul_pos (hu a (List.mem_cons_self _ _)) (hw b (List.mem_cons_self _ _))
          · exact ih s (fun y hy => hu y (List.mem_cons_of_mem _ hy))
              (fun y hy => hw y (List.mem_cons_of_mem _ hy)) x h

theorem vecProd_posVec (n : ℕ) : ∀ (vs : List Vec), (∀ v ∈ vs, posVec v) →
    posVec (vecProd n vs) := by
  intro vs
  induction vs with
  | nil =>
      intro _ x hx
      rw [vecProd] at hx
      simp only [List.foldr_nil] at hx
      rw [(List.eq_of_mem_replicate hx : x = 1)]
      norm_num
  | cons v vs ih =>
      intro h
      have e : vecProd n (v :: vs) = List.zipWith (· * ·) v (vecProd n vs) := rfl
      rw [e]
      exact posVec_zipWith_mul v (vecProd n vs) (h v (List.mem_cons_self _ _))
        (ih (fun w hw => h w (List.mem_cons_of_mem _ hw)))

theorem vecProd_length (n : ℕ) : ∀ (vs : List Vec), (∀ v ∈ vs, v.length = n) →
    (vecProd n vs).length = n := by
  intro vs
  induction vs with
  | nil => intro _; simp [vecProd]
  | cons v vs ih =>
      intro h
      have e : vecProd n (v :: vs) = List.zipWith (· * ·) v (vecProd n vs) := rfl
      rw [e, List.length_zipWith, h v (List.mem_cons_self _ _),
        ih (fun w hw => h w (List.mem_cons_of_mem _ hw)), min_self]

theorem mem_allTuples : ∀ (sizes t : List ℕ),
    t ∈ allTuples sizes
      ↔ (t.length = sizes.length ∧ ∀ q, q < sizes.length → t.getD q 0 < sizes.getD q 0) := by
  intro sizes
  induction sizes with
  | nil =>
      intro t
      constructor
      · intro ht
        have he : t = [] := by simpa [allTuples] using ht
        subst he
        exact ⟨rfl, fun q hq => absurd hq (Nat.not_lt_zero q)⟩
      · rintro ⟨hlen, _⟩
        have he : t = [] := List.length_eq_zero.mp hlen
        subst he
        simp [allTuples]
  | cons n ns ih =>
      intro t
      constructor
      · intro ht
        simp only [allTuples, List.mem_flatten, List.mem_map] at ht
        obtain ⟨l, ⟨v, hv, rfl⟩, htl⟩ := ht
        obtain ⟨ts, hts, rfl⟩ := List.mem_map.mp htl
        have hvn : v < n := List.mem_range.mp hv
        obtain ⟨hlen, hind⟩ := (ih ts).mp hts
        refine ⟨by simp [hlen], ?_⟩
        intro q hq
        cases q with
        | zero => simpa using hvn
        | succ q2 =>
            have hq2 : q2 < ns.length := by simpa using hq
            simpa using hind q2 hq2
      · rintro ⟨hlen, hind⟩
        cases t with
        | nil => simp at hlen
        | cons v ts =>
            have hvn : v < n := by simpa using hind 0 (by simp)
            have hts : ts ∈ allTuples ns := by
              refine (ih ts).mpr ⟨by simpa using hlen, ?_⟩
              intro q hq
              simpa using hind (q + 1) (by simpa using hq)
            simp only [allTuples, List.mem_flatten, List.mem_map]
            exact ⟨(allTuples ns).map (v :: ·), ⟨v, List.mem_range.mpr hvn, rfl⟩,
              List.mem_map.mpr ⟨ts, hts, rfl⟩⟩

theorem rank_lt : ∀ (sizes t : List ℕ), t ∈ allTuples sizes → rank sizes t < sizes.prod := by
  intro sizes
  induction sizes with
  | nil =>
      intro t ht
      have he : t = [] := by simpa [allTuples] using ht
      subst he
      simp [rank]
  | cons n ns ih =>
      intro t ht
      simp only [allTuples, List.mem_flatten, List.mem_map] at ht
      obtain ⟨l, ⟨v, hv, rfl⟩, htl⟩ := ht
      obtain ⟨ts, hts, rfl⟩ := List.mem_map.mp htl
      have hvn : v < n := List.mem_range.mp hv
      have hr := ih ts hts
      show v * ns.prod + rank ns ts < (n :: ns).prod
      rw [List.prod_cons]
      calc v * ns.prod + rank ns ts < v * ns.prod + ns.prod := by omega
        _ = (v + 1) * ns.prod := by ring
        _ ≤ n * ns.prod := Nat.mul_le_mul_right _ (Nat.succ_le_of_lt hvn)

theorem foldr_condmul_nonneg (p : ℕ) (m : ℕ → ℚ) (hm : ∀ q, 0 ≤ m q) :
    ∀ (L : List ℕ), 0 ≤ L.foldr (fun q acc => if q = p then acc else m q * acc) 1 := by
  intro L
  induction L with
  | nil => norm_num
  | cons a t ih =>
      rw [List.foldr_cons]
      by_cases ha : a = p
      · rw [if_pos ha]; exact ih
      · rw [if_neg ha]; exact mul_nonneg (hm a) ih

theorem foldr_condmul_pos (p : ℕ) (m : ℕ → ℚ) :
    ∀ (L : List ℕ), (∀ q ∈ L, q ≠ p → 0 < m q) →
      0 < L.foldr (fun q acc => if q = p then acc else m q * acc) 1 := by
  intro L
  induction L with
  | nil => intro _; norm_num
  | cons a t ih =>
      intro h
      rw [List.foldr_cons]
      by_cases ha : a = p
      · rw [if_pos ha]
        exact ih (fun q hq hnp => h q (List.mem_cons_of_mem _ hq) hnp)
      · rw [if_neg ha]
        exact mul_pos (h a (List.mem_cons_self _ _) ha)
          (ih (fun q hq hnp => h q (List.mem_cons_of_mem _ hq) hnp))

theorem exceptProd_nonneg (p : ℕ) (msgs : List Vec) (t : List ℕ)
    (h : ∀ w ∈ msgs, nonneg w) : 0 ≤ exceptProd p msgs t := by
  apply foldr_condmul_nonneg
  intro q
  by_cases hq : q < msgs.length
  · exact nonneg_getD (h _ (getD_mem_of_lt msgs [] hq)) _
  · rw [List.getD_eq_default _ _ (le_of_not_lt hq)]
    simp [List.getD]

theorem exceptProd_pos (p : ℕ) (msgs : List Vec) (t : List ℕ)
    (h : ∀ q, q < msgs.length → q ≠ p → 0 < (msgs.getD q []).getD (t.getD q 0) 0) :
    0 < exceptProd p msgs t := by
  apply foldr_condmul_pos
  intro q hq hnp
  exact h q (List.mem_range.mp hq) hnp

theorem scopeSizes_length (g : FactorGraph) (scope : List ℕ) :
    (scopeSizes g scope).length = scope.length := by simp [scopeSizes]

theorem scopeSizes_getD (g : FactorGraph) (scope : List ℕ) {q : ℕ} (hq : q < scope.length) :
    (scopeSizes g scope).getD q 0 = size g (scope.getD q 0) :=
  getD_map_lt (size g) scope 0 0 hq

theorem contract_pos (g : FactorGraph) (scope : List ℕ) (probs : List ℚ) (p : ℕ)
    (msgs : List Vec)
    (hlen : probs.length = (scopeSizes g scope).prod)
    (hpos : posVec probs)
    (hmlen : msgs.length = scope.length)
    (hok : ∀ q, q < scope.length → okMsg (size g (scope.getD q 0)) (msgs.getD q []))
    (hp : p < scope.length) :
    (contract (scopeSizes g scope) probs p msgs).length = size g (scope.getD p 0)
      ∧ posVec (contract (scopeSizes g scope) probs p msgs) := by
  have hnn : ∀ w ∈ msgs, nonneg w := by
    intro w hw
    obtain ⟨q, hq, rfl⟩ := List.mem_iff_getElem.mp hw
    have := (hok q (by rw [← hmlen]; exact hq)).2.1
    rwa [List.getD_eq_getElem _ _ hq] at this
  constructor
  · rw [contract, List.length_map, List.length_range, scopeSizes_getD g scope hp]
  · intro x hx
    rw [contract] at hx
    rcases List.mem_map.mp hx with ⟨v, hv, rfl⟩
    have hvlt : v < (scopeSizes g scope).getD p 0 := by
      rw [← List.mem_range]
      exact hv
    set tW : List ℕ := (List.range scope.length).map
      (fun q => if q = p then v else firstPosIdx (msgs.getD q [])) with htW
    have htW_getD : ∀ q, q < scope.length →
        tW.getD q 0 = if q = p then v else firstPosIdx (msgs.getD q []) := by
      intro q hq
      rw [htW, getD_range_map _ 0 hq]
    have htW_mem : tW ∈ allTuples (scopeSizes g scope) := by
      rw [mem_allTuples]
      constructor
      · rw [htW, List.length_map, List.length_range, scopeSizes_length]
      · intro q hq
        rw [scopeSizes_length] at hq
        rw [htW_getD q hq, scopeSizes_getD g scope hq]
        by_cases hqp : q = p
        · rw [if_pos hqp, hqp]
          rw [scopeSizes_getD g scope hp] at hvlt
          exact hvlt
        · rw [if_neg hqp]
          have hokq := hok q hq
          have hfp := firstPosIdx_spec _ hokq.2.1 hokq.2.2
          rw [← hokq.1]
          exact hfp.1
    have htW_p : tW.getD p 0 = v := by rw [htW_getD p hp, if_pos rfl]
    have htW_filter : tW ∈ (allTuples (scopeSizes g scope)).filter
        (fun t => t.getD p 0 = v) := by
      rw [List.mem_filter]
      exact ⟨htW_mem, by rw [decide_eq_true_eq]; exact htW_p⟩
    apply sum_pos_of_mem
    · intro y hy
      rcases List.mem_map.mp hy with ⟨t, ht, rfl⟩
      apply mul_nonneg
      · exact nonneg_getD (fun z hz => le_of_lt (hpos z hz)) _
      · exact exceptProd_nonneg p msgs t hnn
    · exact List.mem_map.mpr ⟨tW, htW_filter, rfl⟩
    · apply mul_pos
      · have hrk : rank (scopeSizes g scope) tW < probs.length := by
          rw [hlen]
          exact rank_lt _ _ htW_mem
        rw [List.getD_eq_getElem _ _ hrk]
        exact hpos _ (List.getElem_mem hrk)
      · apply exceptProd_pos
        intro q hq hnp
        rw [hmlen] at hq
        rw [htW_getD q hq, if_neg hnp]
        have hokq := hok q hq
        exact (firstPosIdx_spec _ hokq.2.1 hokq.2.2).2

/-- Shape and mass invariant of the marginal-to-factor message array. -/
def wfMsgs (g : FactorGraph) (ms : List (List Vec)) : Prop :=
  ms.length = g.factors.length ∧
  ∀ j, j < g.factors.length →
    (ms.getD j []).length = (g.factors.getD j default).scope.length ∧
    ∀ p, p < (g.factors.getD j default).scope.length →
      okMsg (size g ((g.factors.getD j default).scope.getD p 0)) ((ms.getD j []).getD p [])

/-- Shape and strict positivity of the factor-to-marginal message array. -/
def wfF2M (g : FactorGraph) (F : List (List Vec)) : Prop :=
  F.length = g.factors.length ∧
  ∀ j, j < g.factors.length →
    (F.getD j []).length = (g.factors.getD j default).scope.length ∧
    ∀ p, p < (g.factors.getD j default).scope.length →
      ((F.getD j []).getD p []).length = size g ((g.factors.getD j default).scope.getD p 0)
        ∧ posVec ((F.getD j []).getD p [])

/-- Belief invariant during the iteration: unobserved variables carry a
probability vector of total mass one, observed variables carry their clamp. -/
def wfBeliefs (g : FactorGraph) (obs : List (Option ℕ)) (bs : List Vec) : Prop :=
  ∀ i, i < g.marginals.length →
    (obs.getD i none = none → ((bs.getD i []).sum = 1))
      ∧ (∀ v, obs.getD i none = some v → bs.getD i [] = clampVec (size g i) v)

theorem factorMessages_wf (g : FactorGraph) (ms : List (List Vec))
    (hg : wfGraph g) (hm : wfMsgs g ms) : wfF2M g (factorMessages g ms) := by
  constructor
  · simp [factorMessages]
  · intro j hj
    have hf := hg.1 _ (getD_mem_of_lt g.factors default hj)
    constructor
    · rw [factorMessages, getD_range_map _ _ hj, List.length_map, List.length_range]
    · intro p hp
      rw [factorMessages, getD_range_map _ _ hj, getD_range_map _ _ hp]
      have hc := contract_pos g (g.factors.getD j default).scope
        (g.factors.getD j default).probs p (ms.getD j []) hf.2.1 hf.2.2
        (hm.2 j hj).1 (fun q hq => (hm.2 j hj).2 q hq) hp
      exact ⟨by rw [normalize_length, hc.1], normalize_posVec hc.2⟩

theorem mem_incomingIdx (g : FactorGraph) (F : List (List Vec)) (i : ℕ)
    (e : (ℕ × ℕ) × Vec) :
    e ∈ incomingIdx g F i
      ↔ ∃ j p, j < g.factors.length
          ∧ p < (g.factors.getD j default).scope.length
          ∧ (g.factors.getD j default).scope.getD p 0 = i
          ∧ e = ((j, p), (F.getD j []).getD p []) := by
  constructor
  · intro he
    rw [incomingIdx] at he
    rcases List.mem_flatten.mp he with ⟨l, hl, hel⟩
    rcases List.mem_map.mp hl with ⟨j, hj, rfl⟩
    have hjlt := List.mem_range.mp hj
    rcases List.mem_filterMap.mp hel with ⟨p, hpmem, hcond⟩
    have hplt := List.mem_range.mp hpmem
    by_cases hsc : (g.factors.getD j default).scope.getD p 0 = i
    · rw [if_pos hsc] at hcond
      exact ⟨j, p, hjlt, hplt, hsc, (Option.some_inj.mp hcond).symm⟩
    · rw [if_neg hsc] at hcond
      cases hcond
  · rintro ⟨j, p, hj, hp, hsc, rfl⟩
    rw [incomingIdx]
    apply List.mem_flatten.mpr
    refine ⟨_, List.mem_map.mpr ⟨j, List.mem_range.mpr hj, rfl⟩, ?_⟩
    exact List.mem_filterMap.mpr ⟨p, List.mem_range.mpr hp, by rw [if_pos hsc]⟩

theorem incoming_mem_prop (g : FactorGraph) (F : List (List Vec)) (i : ℕ)
    (hF : wfF2M g F) :
    ∀ w ∈ incoming g F i, w.length = size g i ∧ posVec w := by
  intro w hw
  rcases List.mem_map.mp hw with ⟨e, he, rfl⟩
  rcases (mem_incomingIdx g F i e).mp he with ⟨j, p, hj, hp, hsc, rfl⟩
  have h := (hF.2 j hj).2 p hp
  rw [hsc] at h
  exact h

theorem incomingExcept_mem_prop (g : FactorGraph) (F : List (List Vec)) (i j0 p0 : ℕ)
    (hF : wfF2M g F) :
    ∀ w ∈ incomingExcept g F i j0 p0, w.length = size g i ∧ posVec w := by
  intro w hw
  rcases List.mem_filterMap.mp hw with ⟨e, he, hcond⟩
  by_cases hedge : e.1 = (j0, p0)
  · rw [if_pos hedge] at hcond; cases hcond
  · rw [if_neg hedge] at hcond
    have hew : e.2 = w := Option.some_inj.mp hcond
    rcases (mem_incomingIdx g F i e).mp he with ⟨j, p, hj, hp, hsc, rfl⟩
    have h := (hF.2 j hj).2 p hp
    rw [hsc] at h
    rw [← hew]
    exact h

theorem size_pos (g : FactorGraph) (hg : wfGraph g) {i : ℕ} (hi : i < g.marginals.length) :
    0 < size g i := by
  have hm := hg.2 _ (getD_mem_of_lt g.marginals [] hi)
  by_contra h
  have h0 : size g i = 0 := by omega
  have he : (g.marginals.getD i []) = [] := List.length_eq_zero.mp h0
  rw [he] at hm
  norm_num at hm

theorem normalize_vecProd_ok (g : FactorGraph) (i : ℕ) (hg : wfGraph g)
    (hi : i < g.marginals.length) (vs : List Vec)
    (h : ∀ w ∈ vs, w.length = size g i ∧ posVec w) :
    okMsg (size g i) (normalize (vecProd (size g i) vs))
      ∧ (normalize (vecProd (size g i) vs)).sum = 1 := by
  have hlen : (vecProd (size g i) vs).length = size g i :=
    vecProd_length _ _ (fun w hw => (h w hw).1)
  have hpos : posVec (vecProd (size g i) vs) :=
    vecProd_posVec _ _ (fun w hw => (h w hw).2)
  have hne : vecProd (size g i) vs ≠ [] := by
    intro he
    have hsp := size_pos g hg hi
    rw [he] at hlen
    simp at hlen
    omega
  have hsum : 0 < (vecProd (size g i) vs).sum := List.sum_pos _ hpos hne
  have hs1 : (normalize (vecProd (size g i) vs)).sum = 1 := normalize_sum (ne_of_gt hsum)
  exact ⟨⟨by rw [normalize_length, hlen],
    normalize_nonneg (fun x hx => le_of_lt (hpos x hx)), by rw [hs1]; norm_num⟩, hs1⟩

theorem eff_ok (g : FactorGraph) (obs : List (Option ℕ)) (hg : wfGraph g)
    (hobs : wfObs g obs) {i : ℕ} (hi : i < g.marginals.length) :
    okMsg (size g i) (eff g obs i) := by
  cases h : obs.getD i none with
  | some v =>
      have hv : v < size g i := by
        have ho := hobs i hi
        rw [h] at ho
        exact ho
      simp only [eff, h]
      exact okMsg_clampVec hv
  | none =>
      simp only [eff, h]
      have hm := hg.2 _ (getD_mem_of_lt g.marginals [] hi)
      exact ⟨rfl, fun x hx => le_of_lt (hm.1 x hx), by rw [hm.2]; norm_num⟩

theorem initState_msgs_eq (g : FactorGraph) (obs : List (Option ℕ)) :
    (initState g obs).msgs = (List.range g.factors.length).map (fun j =>
      ((g.factors.getD j default).scope).map (fun i => eff g obs i)) := rfl

theorem initState_beliefs_eq (g : FactorGraph) (obs : List (Option ℕ)) :
    (initState g obs).beliefs = (List.range g.marginals.length).map (eff g obs) := rfl

theorem bpRound_msgs_eq (g : FactorGraph) (obs : List (Option ℕ)) (s : BPState) :
    (bpRound g obs s).msgs = outgoing g obs (factorMessages g s.msgs) := rfl

theorem bpRound_beliefs_eq (g : FactorGraph) (obs : List (Option ℕ)) (s : BPState) :
    (bpRound g obs s).beliefs = (List.range g.marginals.length).map
      (beliefUpdate g obs (factorMessages g s.msgs)) := rfl

theorem initState_msgs_wf (g : FactorGraph) (obs : List (Option ℕ))
    (hg : wfGraph g) (hobs : wfObs g obs) : wfMsgs g (initState g obs).msgs := by
  rw [initState_msgs_eq]
  constructor
  · simp
  · intro j hj
    have hf := hg.1 _ (getD_mem_of_lt g.factors default hj)
    constructor
    · rw [getD_range_map _ _ hj, List.length_map]
    · intro p hp
      rw [getD_range_map _ _ hj, getD_map_lt (fun i => eff g obs i) _ [] 0 hp]
      exact eff_ok g obs hg hobs (hf.1 _ (getD_mem_of_lt _ 0 hp))

theorem initState_beliefs_wf (g : FactorGraph) (obs : List (Option ℕ))
    (hg : wfGraph g) (_hobs : wfObs g obs) : wfBeliefs g obs (initState g obs).beliefs := by
  rw [initState_beliefs_eq]
  intro i hi
  constructor
  · intro hnone
    rw [getD_range_map _ _ hi]
    simp only [eff, hnone]
    exact (hg.2 _ (getD_mem_of_lt g.marginals [] hi)).2
  · intro v hv
    rw [getD_range_map _ _ hi]
    simp only [eff, hv]

theorem outgoing_wf (g : FactorGraph) (obs : List (Option ℕ)) (F : List (List Vec))
    (hg : wfGraph g) (hobs : wfObs g obs) (hF : wfF2M g F) :
    wfMsgs g (outgoing g obs F) := by
  constructor
  · simp [outgoing]
  · intro j hj
    have hf := hg.1 _ (getD_mem_of_lt g.factors default hj)
    constructor
    · rw [outgoing, getD_range_map _ _ hj, List.length_map, List.length_range]
    · intro p hp
      rw [outgoing, getD_range_map _ _ hj, getD_range_map _ _ hp]
      have hi : (g.factors.getD j default).scope.getD p 0 < g.marginals.length :=
        hf.1 _ (getD_mem_of_lt _ 0 hp)
      cases h : obs.getD ((g.factors.getD j default).scope.getD p 0) none with
      | some v =>
          have hv : v < size g ((g.factors.getD j default).scope.getD p 0) := by
            have ho := hobs _ hi
            rw [h] at ho
            exact ho
          simp only [h]
          exact okMsg_clampVec hv
      | none =>
          simp only [h]
          exact (normalize_vecProd_ok g _ hg hi _
            (incomingExcept_mem_prop g F _ j p hF)).1

theorem bpRound_wf (g : FactorGraph) (obs : List (Option ℕ)) (s : BPState)
    (hg : wfGraph g) (hobs : wfObs g obs) (hm : wfMsgs g s.msgs) :
    wfMsgs g (bpRound g obs s).msgs ∧ wfBeliefs g obs (bpRound g obs s).beliefs := by
  have hF := factorMessages_wf g s.msgs hg hm
  constructor
  · rw [bpRound_msgs_eq]
    exact outgoing_wf g obs _ hg hobs hF
  · rw [bpRound_beliefs_eq]
    intro i hi
    constructor
    · intro hnone
      rw [getD_range_map _ _ hi]
      simp only [beliefUpdate, hnone]
      exact (normalize_vecProd_ok g i hg hi _
        (incoming_mem_prop g (factorMessages g s.msgs) i hF)).2
    · intro v hv
      rw [getD_range_map _ _ hi]
      simp only [beliefUpdate, hv]

theorem bpLoop_wf (g : FactorGraph) (obs : List (Option ℕ)) (tol : ℚ) :
    ∀ (fuel : ℕ) (s : BPState), wfGraph g → wfObs g obs →
      wfMsgs g s.msgs → wfBeliefs g obs s.beliefs →
      wfMsgs g (bpLoop g obs tol fuel s).msgs
        ∧ wfBeliefs g obs (bpLoop g obs tol fuel s).beliefs := by
  intro fuel
  induction fuel with
  | zero => intro s _ _ h1 h2; exact ⟨h1, h2⟩
  | succ n ih =>
      intro s hg hobs h1 h2
      have hr := bpRound_wf g obs s hg hobs h1
      have e : bpLoop g obs tol (n + 1) s
          = if maxDiff s.beliefs (bpRound g obs s).beliefs ≤ tol then bpRound g obs s
            else bpLoop g obs tol n (bpRound g obs s) := rfl
      rw [e]
      by_cases hc : maxDiff s.beliefs (bpRound g obs s).beliefs ≤ tol
      · rw [if_pos hc]
        exact hr
      · rw [if_neg hc]
        exact ih (bpRound g obs s) hg hobs hr.1 hr.2

/-- Claim C5: for every well-formed graph (positive factor tables, positive
unit-mass marginals, valid scopes) and well-formed observation row, the
predict_proba belief vector of every unobserved variable sums to exactly 1,
and the belief vector of every observed cell is exactly the one-hot clamp of
the observed value; in a 2-category domain, observing value 1 yields [0, 1]. -/
theorem claim_C5 (g : FactorGraph) (obs : List (Option ℕ)) (tol : ℚ) (fuel : ℕ)
    (hg : wfGraph g) (hobs : wfObs g obs) (i : ℕ) (hi : i < g.marginals.length) :
    (obs.getD i none = none → ((predict_proba g obs tol fuel).getD i []).sum = 1)
      ∧ (∀ v, obs.getD i none = some v →
          (predict_proba g obs tol fuel).getD i [] = clampVec (size g i) v)
      ∧ clampVec 2 1 = [0, 1] := by
  have h := bpLoop_wf g obs tol fuel (initState g obs) hg hobs
    (initState_msgs_wf g obs hg hobs) (initState_beliefs_wf g obs hg hobs)
  have hb := h.2 i hi
  refine ⟨hb.1, hb.2, ?_⟩
  norm_num [clampVec, List.range_succ]

/-- Witness for claim C5 on the fitted tutorial graph with variable 0
observed as 0 and variable 1 unobserved. -/
theorem claim_C5_witness :
    wfGraph fittedTutorial
      ∧ wfObs fittedTutorial [some 0, none]
      ∧ ((predict_proba fittedTutorial [some 0, none] 0 5).getD 1 []).sum = 1
      ∧ (predict_proba fittedTutorial [some 0, none] 0 5).getD 0 []
          = clampVec (size fittedTutorial 0) 0 := by
  have hg : wfGraph fittedTutorial := by
    rw [fittedTutorial_eq]
    refine ⟨?_, ?_⟩
    · intro f hf
      rw [List.mem_singleton] at hf
      subst hf
      refine ⟨?_, ?_, ?_⟩
      · norm_num [List.forall_mem_cons]
      · norm_num [scopeSizes, size, List.getD, List.getElem?_cons_zero,
          List.getElem?_cons_succ]
      · norm_num [posVec, List.forall_mem_cons]
    · norm_num [posVec, List.forall_mem_cons]
  have hobs : wfObs fittedTutorial [some 0, none] := by
    intro i hi
    rw [fittedTutorial_eq] at hi
    simp only [List.length_cons, List.length_nil] at hi
    interval_cases i
    · show (0 : ℕ) < size fittedTutorial 0
      rw [fittedTutorial_eq]
      norm_num [size, List.getD, List.getElem?_cons_zero]
    · trivial
  have h1 : (1 : ℕ) < fittedTutorial.marginals.length := by
    rw [fittedTutorial_eq]; norm_num
  have h0 : (0 : ℕ) < fittedTutorial.marginals.length := by
    rw [fittedTutorial_eq]; norm_num
  exact ⟨hg, hobs,
    (claim_C5 fittedTutorial [some 0, none] 0 5 hg hobs 1 h1).1 rfl,
    (claim_C5 fittedTutorial [some 0, none] 0 5 hg hobs 0 h0).2.1 0 rfl⟩

theorem zipWith_add_replicate_zero : ∀ (l : List ℚ),
    List.zipWith (· + ·) (List.replicate l.length 0) l = l := by
  intro l
  induction l with
  | nil => rfl
  | cons a t ih => simp [List.replicate_succ, ih]

theorem summarize_factors_eq (g : FactorGraph) (X : List (List ℕ)) (w : List ℚ) :
    (summarize g X w).factors = g.factors.map (fun f =>
      { f with stats := List.zipWith (· + ·) f.stats (countsVec g f.scope X w) }) := rfl

theorem from_summaries_factors_eq (g : FactorGraph) :
    (from_summaries g).factors = g.factors.map (fun f =>
      { f with probs := normalize f.stats, stats := List.replicate f.stats.length 0 }) := rfl

set_option maxHeartbeats 1000000 in
/-- Claim C8: from_summaries converts each factor's accumulated statistics
into new parameters and zeroes the accumulator; a subsequent summarize over a
batch followed by from_summaries therefore yields parameters equal to the
normalized counts of that batch alone.  Concretely, after the prior fit on
the 11 tutorial rows, summarizing the first 3 rows and applying
from_summaries yields exactly the row-major table [1/3, 0, 2/3, 0]. -/
theorem claim_C8 :
    (∀ (g : FactorGraph), ∀ f ∈ (from_summaries g).factors, ∀ x ∈ f.stats, x = 0)
      ∧ (∀ (g : FactorGraph) (X : List (List ℕ)) (w : List ℚ) (j : ℕ),
          j < g.factors.length →
          (g.factors.getD j default).stats
            = List.replicate (countsVec g (g.factors.getD j default).scope X w).length 0 →
          ((from_summaries (summarize g X w)).factors.getD j default).probs
            = normalize (countsVec g (g.factors.getD j default).scope X w))
      ∧ (from_summaries (summarize fittedTutorial [[0, 0], [1, 0], [1, 0]] [1, 1, 1])).factors.map
          Factor.probs = [[1/3, 0, 2/3, 0]] := by
  refine ⟨?_, ?_, ?_⟩
  · intro g f hf x hx
    rw [from_summaries_factors_eq] at hf
    rcases List.mem_map.mp hf with ⟨f0, _, rfl⟩
    exact List.eq_of_mem_replicate hx
  · intro g X w j hj hstats
    rw [from_summaries_factors_eq, summarize_factors_eq, List.map_map,
      getD_map_lt _ _ default default hj]
    show normalize (List.zipWith (· + ·) (g.factors.getD j default).stats
      (countsVec g (g.factors.getD j default).scope X w)) = _
    rw [hstats, zipWith_add_replicate_zero]
  · rw [fittedTutorial_eq]
    norm_num [from_summaries, summarize, countsVec, normalize, allTuples,
      scopeSizes, scopeValues, size, List.range_succ, List.filterMap_cons,
      List.zipWith, List.replicate_succ, List.zip_cons_cons,
      List.getElem?_cons_zero, List.getElem?_cons_succ, List.getD]

/-- Witness for the batch-only dependence part of claim C8 at the fitted
tutorial graph and the first three dataset rows. -/
theorem claim_C8_witness :
    ((0 : ℕ) < fittedTutorial.factors.length)
      ∧ ((fittedTutorial.factors.getD 0 default).stats
          = List.replicate (countsVec fittedTutorial
              (fittedTutorial.factors.getD 0 default).scope
              [[0, 0], [1, 0], [1, 0]] [1, 1, 1]).length 0)
      ∧ ((from_summaries (summarize fittedTutorial
            [[0, 0], [1, 0], [1, 0]] [1, 1, 1])).factors.getD 0 default).probs
          = normalize (countsVec fittedTutorial
              (fittedTutorial.factors.getD 0 default).scope
              [[0, 0], [1, 0], [1, 0]] [1, 1, 1]) := by
  have h1 : (0 : ℕ) < fittedTutorial.factors.length := by
    rw [fittedTutorial_eq]; norm_num
  have h2 : (fittedTutorial.factors.getD 0 default).stats
      = List.replicate (countsVec fittedTutorial
          (fittedTutorial.factors.getD 0 default).scope
          [[0, 0], [1, 0], [1, 0]] [1, 1, 1]).length 0 := by
    rw [fittedTutorial_eq]
    norm_num [countsVec, allTuples, scopeSizes, scopeValues, size,
      List.range_succ, List.replicate_succ, List.zip_cons_cons,
      List.getElem?_cons_zero, List.getElem?_cons_succ, List.getD]
  exact ⟨h1, h2,
    claim_C8.2.1 fittedTutorial [[0, 0], [1, 0], [1, 0]] [1, 1, 1] 0 h1 h2⟩

end FG
